import Mathlib

/-!
Verification of the DS210 country-happiness graph pipeline (src/ds210fp/src/main.rs).

Shallow embedding notes:
- `f64` fields are modelled as `ℚ`. The concrete scores appearing in the spec and
  tests (7.5, 6.8, ...) are exactly representable, and the only numeric operations
  the pipeline performs on scores are subtraction, absolute value and comparison.
- `petgraph::Graph::<Country, ()>::new()` creates a *directed* graph. Nodes are
  identified by dense indices in insertion order; `add_node` appends, `add_edge`
  appends a directed pair. `graph.neighbors(v)` on a directed graph iterates the
  *outgoing* neighbors, most recently inserted edge first.
- `HashMap` iteration order is arbitrary but fixed for an unmodified map; the
  record store is therefore modelled as a list of records, one fixed iteration
  order used by both `build_graph` (main.rs line 62) and the duplicate-node loop
  in `main` (line 123). Likewise the iteration order of the per-region `HashMap`
  in `build_graph` is arbitrary; the region edges are modelled in index order,
  which yields the same edge multiset (every ordered pair (i, j), i ≠ j, with
  equal regions appears exactly once either way).
-/

/-- The record type, from `struct Country` (main.rs lines 9-20). -/
structure Country where
  country_name : String
  country_region : String
  happiness_score : ℚ
  happiness_rank : ℚ
  gdp : ℚ
  health : ℚ
  family : ℚ
  gove_corruption : ℚ
deriving DecidableEq

/-- Default record used for out-of-range list indexing in the model. -/
def defaultCountry : Country := ⟨"", "", 0, 0, 0, 0, 0, 0⟩

instance : Inhabited Country := ⟨defaultCountry⟩

/-- A `petgraph::Graph<Country, ()>`: node data in insertion order and the list
of directed edges in insertion order (parallel edges are kept, petgraph does not
deduplicate). -/
structure PGraph where
  nodes : List Country
  edges : List (Nat × Nat)
deriving DecidableEq

/-- `graph.node_count()`. -/
def nodeCount (g : PGraph) : Nat := g.nodes.length

/-- `graph.edge_count()`. -/
def edgeCount (g : PGraph) : Nat := g.edges.length

/-- `graph[v]`: the record stored at node index `v`. -/
def nodeData (g : PGraph) (v : Nat) : Country := g.nodes.getD v defaultCountry

/-- The region-clique edges added by `build_graph` (main.rs lines 70-79): for
every region group, every ordered pair of distinct node indices in the group.
Both directions are inserted because the source iterates the full square of the
group. -/
def regionEdges (records : List Country) : List (Nat × Nat) :=
  (List.range records.length).flatMap (fun i =>
    (List.range records.length).filterMap (fun j =>
      if i ≠ j ∧ (records.getD i defaultCountry).country_region
               = (records.getD j defaultCountry).country_region
      then some (i, j) else none))

/-- `build_graph` (main.rs lines 56-82): one node per record, then the region
cliques. -/
def build_graph (records : List Country) : PGraph :=
  { nodes := records, edges := regionEdges records }

/-- The similarity edges added in `main` (main.rs lines 128-135). They connect
the *duplicate* nodes created at lines 123-125, which occupy the index range
`[records.length, 2 * records.length)`; the loop over `i < j` inserts a single
directed edge `nodes[i] → nodes[j]` when the score difference is below 1. -/
def simEdges (records : List Country) : List (Nat × Nat) :=
  (List.range records.length).flatMap (fun i =>
    (List.range records.length).filterMap (fun j =>
      if i < j ∧ |(records.getD i defaultCountry).happiness_score
                - (records.getD j defaultCountry).happiness_score| < 1
      then some (records.length + i, records.length + j) else none))

/-- The graph at the end of the construction phase of `main` (lines 121-135):
`build_graph`, then one duplicate node per record, then the similarity edges
between the duplicates. -/
def main_graph (records : List Country) : PGraph :=
  { nodes := records ++ records, edges := regionEdges records ++ simEdges records }

/-- `graph.neighbors(v)` for a directed petgraph graph: targets of the outgoing
edges of `v`, most recently inserted first. -/
def neighbors (g : PGraph) (v : Nat) : List Nat :=
  ((g.edges.filter (fun e => e.1 == v)).map Prod.snd).reverse

/-- The per-node count of `print_node_degrees` (main.rs line 88):
`graph.neighbors(node).count()`. -/
def degree (g : PGraph) (v : Nat) : Nat := (neighbors g v).length

/-- The sum of the reported degrees over all node indices
(`graph.node_indices()`, main.rs line 87). -/
def degreeSum (g : PGraph) : Nat := ∑ v ∈ Finset.range (nodeCount g), degree g v

/-- Integer reformulation of the similarity test `|a - b| < 1.0`, used to
evaluate concrete graphs (rational arithmetic does not reduce in the kernel). -/
def scoreCloseInt (a b : ℚ) : Prop :=
  (a.num * b.den - b.num * a.den).natAbs < a.den * b.den

instance (a b : ℚ) : Decidable (scoreCloseInt a b) := by
  unfold scoreCloseInt
  infer_instance

lemma scoreClose_iff (a b : ℚ) : |a - b| < 1 ↔ scoreCloseInt a b := by
  have hda : ((a.den : ℚ)) ≠ 0 := by
    exact_mod_cast a.den_nz
  have hdb : ((b.den : ℚ)) ≠ 0 := by
    exact_mod_cast b.den_nz
  have hsub : a - b = ((a.num * b.den - b.num * a.den : ℤ) : ℚ) / ((a.den * b.den : ℕ) : ℚ) := by
    conv_lhs => rw [← Rat.num_div_den a, ← Rat.num_div_den b]
    rw [div_sub_div _ _ hda hdb]
    push_cast
    ring_nf
  have hpos : (0 : ℚ) < ((a.den * b.den : ℕ) : ℚ) := by
    have := a.pos
    have := b.pos
    positivity
  rw [hsub, abs_div, abs_of_pos hpos, div_lt_one hpos, scoreCloseInt]
  rw [← Int.cast_abs, Int.abs_eq_natAbs]
  exact_mod_cast Iff.rfl

/-- `simEdges` with the similarity test replaced by its integer form; equal to
`simEdges` (proved below), and evaluable by `decide` on concrete inputs. -/
def simEdgesInt (records : List Country) : List (Nat × Nat) :=
  (List.range records.length).flatMap (fun i =>
    (List.range records.length).filterMap (fun j =>
      if i < j ∧ scoreCloseInt (records.getD i defaultCountry).happiness_score
                   (records.getD j defaultCountry).happiness_score
      then some (records.length + i, records.length + j) else none))

lemma simEdges_eq_int (records : List Country) : simEdges records = simEdgesInt records := by
  unfold simEdges simEdgesInt
  apply congrArg
  funext i
  exact congrArg (fun p => List.filterMap p (List.range records.length))
    (funext fun j => if_congr (and_congr_right (fun _ => scoreClose_iff _ _)) rfl rfl)

lemma main_graph_int (records : List Country) :
    main_graph records = { nodes := records ++ records
                           edges := regionEdges records ++ simEdgesInt records } := by
  rw [main_graph, simEdges_eq_int]

/-! ### Concrete records

Scores are written in reduced `num / den` constructor form so that concrete
graphs evaluate inside the kernel; e.g. `⟨15, 2, _, _⟩ = 7.5`. The records
`recA`/`recB` are the two-record scenario from the spec (§8) and the repository
test `test_build_graph` (regions R1/R2, scores 7.5/6.8); the others are small
inputs used to instantiate the general theorems. -/

/-- Record "A": region "R1", happiness score 7.5. -/
def recA : Country := ⟨"A", "R1", ⟨15, 2, by decide, by decide⟩, 1, 6/5, 4/5, 3/2, 1/5⟩

/-- Record "B": region "R2", happiness score 6.8. -/
def recB : Country := ⟨"B", "R2", ⟨34, 5, by decide, by decide⟩, 2, 1, 9/10, 13/10, 1/10⟩

/-- Record "C": region "R1", happiness score 9. -/
def recC : Country := ⟨"C", "R1", ⟨9, 1, by decide, by decide⟩, 3, 1, 1, 1, 1⟩

/-- Record "D": region "R1", happiness score 1. -/
def recD : Country := ⟨"D", "R1", ⟨1, 1, by decide, by decide⟩, 4, 1, 1, 1, 1⟩

/-- Record "F": region "R2", happiness score 1. -/
def recF : Country := ⟨"F", "R2", ⟨1, 1, by decide, by decide⟩, 5, 1, 1, 1, 1⟩

/-- Record "P": region "R1", happiness score 5. -/
def recP : Country := ⟨"P", "R1", ⟨5, 1, by decide, by decide⟩, 6, 1, 1, 1, 1⟩

/-- Record "Q": region "R2", happiness score 6.2. -/
def recQ : Country := ⟨"Q", "R2", ⟨31, 5, by decide, by decide⟩, 7, 1, 1, 1, 1⟩

/-- Record "S": region "R3", happiness score 5.5. -/
def recS : Country := ⟨"S", "R3", ⟨11, 2, by decide, by decide⟩, 8, 1, 1, 1, 1⟩

/-! ### Structural lemmas about the constructed graphs -/

lemma mem_neighbors {g : PGraph} {v w : Nat} : w ∈ neighbors g v ↔ (v, w) ∈ g.edges := by
  unfold neighbors
  constructor
  · intro h
    rw [List.mem_reverse] at h
    rcases List.mem_map.mp h with ⟨e, he, hw⟩
    rcases List.mem_filter.mp he with ⟨hmem, hv⟩
    have hv2 : e.1 = v := by simpa using hv
    have : e = (v, w) := Prod.ext hv2 hw
    rwa [this] at hmem
  · intro h
    rw [List.mem_reverse]
    exact List.mem_map.mpr ⟨(v, w), List.mem_filter.mpr ⟨h, by simp⟩, rfl⟩

lemma mem_regionEdges {records : List Country} {a b : Nat} :
    (a, b) ∈ regionEdges records ↔
      a < records.length ∧ b < records.length ∧ a ≠ b ∧
      (records.getD a defaultCountry).country_region
        = (records.getD b defaultCountry).country_region := by
  unfold regionEdges
  constructor
  · intro h
    rcases List.mem_flatMap.mp h with ⟨i, hi, hmem⟩
    rcases List.mem_filterMap.mp hmem with ⟨j, hj, heq⟩
    by_cases hc : i ≠ j ∧ (records.getD i defaultCountry).country_region
        = (records.getD j defaultCountry).country_region
    · rw [if_pos hc] at heq
      simp only [Option.some.injEq, Prod.mk.injEq] at heq
      obtain ⟨rfl, rfl⟩ := heq
      exact ⟨List.mem_range.mp hi, List.mem_range.mp hj, hc.1, hc.2⟩
    · rw [if_neg hc] at heq
      exact absurd heq (by simp)
  · rintro ⟨ha, hb, hne, hr⟩
    refine List.mem_flatMap.mpr ⟨a, List.mem_range.mpr ha, List.mem_filterMap.mpr
      ⟨b, List.mem_range.mpr hb, ?_⟩⟩
    rw [if_pos ⟨hne, hr⟩]

lemma mem_simEdges {records : List Country} {a b : Nat} :
    (a, b) ∈ simEdges records ↔
      ∃ i j, i < records.length ∧ j < records.length ∧ i < j ∧
        |(records.getD i defaultCountry).happiness_score
          - (records.getD j defaultCountry).happiness_score| < 1 ∧
        a = records.length + i ∧ b = records.length + j := by
  unfold simEdges
  constructor
  · intro h
    rcases List.mem_flatMap.mp h with ⟨i, hi, hmem⟩
    rcases List.mem_filterMap.mp hmem with ⟨j, hj, heq⟩
    by_cases hc : i < j ∧ |(records.getD i defaultCountry).happiness_score
        - (records.getD j defaultCountry).happiness_score| < 1
    · rw [if_pos hc] at heq
      simp only [Option.some.injEq, Prod.mk.injEq] at heq
      obtain ⟨rfl, rfl⟩ := heq
      exact ⟨i, j, List.mem_range.mp hi, List.mem_range.mp hj, hc.1, hc.2, rfl, rfl⟩
    · rw [if_neg hc] at heq
      exact absurd heq (by simp)
  · rintro ⟨i, j, hi, hj, hij, hs, rfl, rfl⟩
    refine List.mem_flatMap.mpr ⟨i, List.mem_range.mpr hi, List.mem_filterMap.mpr
      ⟨j, List.mem_range.mpr hj, ?_⟩⟩
    rw [if_pos ⟨hij, hs⟩]

lemma nodeCount_main_graph (records : List Country) :
    nodeCount (main_graph records) = 2 * records.length := by
  simp [nodeCount, main_graph, two_mul]

lemma nodeCount_build_graph (records : List Country) :
    nodeCount (build_graph records) = records.length := by
  simp [nodeCount, build_graph]

lemma nodeData_main_graph_left {records : List Country} {i : Nat} (h : i < records.length) :
    nodeData (main_graph records) i = records.getD i defaultCountry := by
  simp only [nodeData, main_graph]
  exact List.getD_append records records defaultCountry i h

lemma nodeData_main_graph_right (records : List Country) (i : Nat) :
    nodeData (main_graph records) (records.length + i) = records.getD i defaultCountry := by
  simp only [nodeData, main_graph]
  rw [List.getD_append_right records records defaultCountry (records.length + i)
    (Nat.le_add_right _ _)]
  simp

lemma main_graph_edges_bound {records : List Country} {e : Nat × Nat}
    (he : e ∈ (main_graph records).edges) :
    e.1 < nodeCount (main_graph records) ∧ e.2 < nodeCount (main_graph records) := by
  rw [nodeCount_main_graph]
  rcases e with ⟨a, b⟩
  rcases List.mem_append.mp he with h | h
  · rcases mem_regionEdges.mp h with ⟨ha, hb, _, _⟩
    exact ⟨by omega, by omega⟩
  · rcases mem_simEdges.mp h with ⟨i, j, hi, hj, _, _, rfl, rfl⟩
    exact ⟨by omega, by omega⟩

/-! ### BFS (`petgraph::visit::Bfs`, used in `main` at lines 137-148)

`Bfs::new` seeds the queue and the discovered set with the start node. Each
`next` pops the queue front, pushes every not-yet-discovered outgoing neighbor
(marking it discovered as it is pushed) and yields the popped node. The
recursion is fuel-indexed; `nodeCount` fuel always suffices, which the
correctness lemma below establishes by tracking the measure
`(nodeCount - discovered) + queue`. -/

/-- One neighbor inspection: push `w` iff not yet discovered. The first list is
the queue, the second the discovered list. -/
def enqueueStep (acc : List Nat × List Nat) (w : Nat) : List Nat × List Nat :=
  if w ∈ acc.2 then acc else (acc.1 ++ [w], acc.2 ++ [w])

def bfsRun (g : PGraph) : Nat → List Nat → List Nat → List Nat
  | 0, _, _ => []
  | _ + 1, [], _ => []
  | fuel + 1, v :: qs, disc =>
      let p := (neighbors g v).foldl enqueueStep (qs, disc)
      v :: bfsRun g fuel p.1 p.2

/-- The full BFS visitation sequence from `start`. -/
def bfs (g : PGraph) (start : Nat) : List Nat := bfsRun g (nodeCount g) [start] [start]

/-- Reachability along stored edge directions (what petgraph BFS actually
follows on this directed graph). -/
def dirReach (g : PGraph) (a b : Nat) : Prop :=
  Relation.ReflTransGen (fun u v => (u, v) ∈ g.edges) a b

/-- Reachability under undirected adjacency (the spec's notion of connected
component). -/
def undirReach (g : PGraph) (a b : Nat) : Prop :=
  Relation.ReflTransGen (fun u v => (u, v) ∈ g.edges ∨ (v, u) ∈ g.edges) a b

/-! ### Properties of the enqueue fold -/

lemma foldl_enqueue_decomp (ws qs d : List Nat) :
    ∃ new : List Nat, (ws.foldl enqueueStep (qs, d)).1 = qs ++ new ∧
      (ws.foldl enqueueStep (qs, d)).2 = d ++ new := by
  induction ws generalizing qs d with
  | nil => exact ⟨[], by simp, by simp⟩
  | cons w ws ih =>
      rw [List.foldl_cons]
      by_cases hw : w ∈ d
      · have hstep : enqueueStep (qs, d) w = (qs, d) := by simp [enqueueStep, hw]
        rw [hstep]
        exact ih qs d
      · have hstep : enqueueStep (qs, d) w = (qs ++ [w], d ++ [w]) := by simp [enqueueStep, hw]
        rw [hstep]
        obtain ⟨new, h1, h2⟩ := ih (qs ++ [w]) (d ++ [w])
        exact ⟨w :: new, by simp [h1], by simp [h2]⟩

lemma foldl_enqueue_nodup (ws qs d : List Nat) (hd : d.Nodup) :
    (ws.foldl enqueueStep (qs, d)).2.Nodup := by
  induction ws generalizing qs d with
  | nil => simpa using hd
  | cons w ws ih =>
      rw [List.foldl_cons]
      by_cases hw : w ∈ d
      · have hstep : enqueueStep (qs, d) w = (qs, d) := by simp [enqueueStep, hw]
        rw [hstep]
        exact ih qs d hd
      · have hstep : enqueueStep (qs, d) w = (qs ++ [w], d ++ [w]) := by simp [enqueueStep, hw]
        rw [hstep]
        refine ih _ _ ?_
        rw [List.nodup_append]
        exact ⟨hd, List.nodup_singleton w, by simp [List.disjoint_singleton, hw]⟩

lemma foldl_enqueue_mono (ws qs d : List Nat) {x : Nat} (hx : x ∈ d) :
    x ∈ (ws.foldl enqueueStep (qs, d)).2 := by
  obtain ⟨new, _, h2⟩ := foldl_enqueue_decomp ws qs d
  rw [h2]
  exact List.mem_append_left _ hx

lemma foldl_enqueue_mem (ws qs d : List Nat) :
    ∀ w ∈ ws, w ∈ (ws.foldl enqueueStep (qs, d)).2 := by
  induction ws generalizing qs d with
  | nil => simp
  | cons a ws ih =>
      intro w hw
      rw [List.foldl_cons]
      rcases List.mem_cons.mp hw with rfl | hw2
      · by_cases ha : w ∈ d
        · have hstep : enqueueStep (qs, d) w = (qs, d) := by simp [enqueueStep, ha]
          rw [hstep]
          exact foldl_enqueue_mono ws qs d ha
        · have hstep : enqueueStep (qs, d) w = (qs ++ [w], d ++ [w]) := by simp [enqueueStep, ha]
          rw [hstep]
          exact foldl_enqueue_mono ws _ _ (by simp)
      · by_cases ha : a ∈ d
        · have hstep : enqueueStep (qs, d) a = (qs, d) := by simp [enqueueStep, ha]
          rw [hstep]
          exact ih qs d w hw2
        · have hstep : enqueueStep (qs, d) a = (qs ++ [a], d ++ [a]) := by simp [enqueueStep, ha]
          rw [hstep]
          exact ih _ _ w hw2

lemma foldl_enqueue_src (ws qs d : List Nat) :
    ∀ x ∈ (ws.foldl enqueueStep (qs, d)).2, x ∈ d ∨ x ∈ ws := by
  induction ws generalizing qs d with
  | nil =>
      intro x hx
      exact Or.inl (by simpa using hx)
  | cons a ws ih =>
      intro x hx
      rw [List.foldl_cons] at hx
      by_cases ha : a ∈ d
      · have hstep : enqueueStep (qs, d) a = (qs, d) := by simp [enqueueStep, ha]
        rw [hstep] at hx
        rcases ih qs d x hx with h | h
        · exact Or.inl h
        · exact Or.inr (List.mem_cons_of_mem _ h)
      · have hstep : enqueueStep (qs, d) a = (qs ++ [a], d ++ [a]) := by simp [enqueueStep, ha]
        rw [hstep] at hx
        rcases ih _ _ x hx with h | h
        · rcases List.mem_append.mp h with h2 | h2
          · exact Or.inl h2
          · have hxa : x = a := by simpa using h2
            subst hxa
            exact Or.inr (List.mem_cons_self x ws)
        · exact Or.inr (List.mem_cons_of_mem _ h)

lemma length_le_of_nodup_bound {l : List Nat} {n : Nat} (hnd : l.Nodup)
    (hlt : ∀ x ∈ l, x < n) : l.length ≤ n := by
  have h1 : l.toFinset.card = l.length := List.toFinset_card_of_nodup hnd
  have h2 : l.toFinset ⊆ Finset.range n := by
    intro x hx
    exact Finset.mem_range.mpr (hlt x (List.mem_toFinset.mp hx))
  have h3 := Finset.card_le_card h2
  rw [h1, Finset.card_range] at h3
  exact h3

/-- Invariant lemma for the BFS loop. Given the queue is contained in the
nodup discovered list, all discovered nodes are valid and reachable from `s`,
and the fuel dominates the measure `(nodeCount - discovered) + queue`, the
output is nodup, contains the queue, is sound for reachability, and its
out-neighborhood closure escapes only into the already-discovered list. -/
lemma bfsRun_master (g : PGraph) (s : Nat)
    (hval : ∀ e ∈ g.edges, e.2 < nodeCount g) :
    ∀ fuel q d, d.Nodup → q.Nodup → (∀ x ∈ q, x ∈ d) →
      (∀ x ∈ d, x < nodeCount g) → (∀ x ∈ d, dirReach g s x) →
      (nodeCount g - d.length) + q.length ≤ fuel →
      (bfsRun g fuel q d).Nodup ∧
      (∀ x ∈ q, x ∈ bfsRun g fuel q d) ∧
      (∀ x ∈ bfsRun g fuel q d, dirReach g s x) ∧
      (∀ x ∈ bfsRun g fuel q d, ∀ w, (x, w) ∈ g.edges → w ∈ d ∨ w ∈ bfsRun g fuel q d) ∧
      (∀ x ∈ bfsRun g fuel q d, x ∈ q ∨ x ∉ d) := by
  intro fuel
  induction fuel with
  | zero =>
      intro q d _ _ _ _ _ hfuel
      have hq : q = [] := List.length_eq_zero.mp (by omega)
      subst hq
      simp [bfsRun]
  | succ fuel ih =>
      intro q d hdnd hqnd hqd hdlt hdreach hfuel
      cases q with
      | nil => simp [bfsRun]
      | cons v qs =>
          have hrun : bfsRun g (fuel + 1) (v :: qs) d
              = v :: bfsRun g fuel ((neighbors g v).foldl enqueueStep (qs, d)).1
                  ((neighbors g v).foldl enqueueStep (qs, d)).2 := rfl
          obtain ⟨new, hq1, hd2⟩ := foldl_enqueue_decomp (neighbors g v) qs d
          have hvd : v ∈ d := hqd v (List.mem_cons_self v qs)
          have hqsd : ∀ x ∈ qs, x ∈ d := fun x hx => hqd x (List.mem_cons_of_mem _ hx)
          have hqsnd : qs.Nodup := (List.nodup_cons.mp hqnd).2
          have hvqs : v ∉ qs := (List.nodup_cons.mp hqnd).1
          have hP2nd : ((neighbors g v).foldl enqueueStep (qs, d)).2.Nodup :=
            foldl_enqueue_nodup _ qs d hdnd
          have hdnew : (d ++ new).Nodup := by rw [← hd2]; exact hP2nd
          have hnewnd : new.Nodup := (List.nodup_append.mp hdnew).2.1
          have hdisj : ∀ x ∈ new, x ∉ d :=
            fun x hx hxd => (List.nodup_append.mp hdnew).2.2 hxd hx
          have hnew_sub : ∀ x ∈ new, x ∈ neighbors g v := by
            intro x hx
            have hx2 : x ∈ ((neighbors g v).foldl enqueueStep (qs, d)).2 := by
              rw [hd2]
              exact List.mem_append_right _ hx
            rcases foldl_enqueue_src _ _ _ x hx2 with h | h
            · exact absurd h (hdisj x hx)
            · exact h
          have hP2lt : ∀ x ∈ ((neighbors g v).foldl enqueueStep (qs, d)).2,
              x < nodeCount g := by
            intro x hx
            rw [hd2] at hx
            rcases List.mem_append.mp hx with h | h
            · exact hdlt x h
            · exact hval _ (mem_neighbors.mp (hnew_sub x h))
          have hP2reach : ∀ x ∈ ((neighbors g v).foldl enqueueStep (qs, d)).2,
              dirReach g s x := by
            intro x hx
            rw [hd2] at hx
            rcases List.mem_append.mp hx with h | h
            · exact hdreach x h
            · exact Relation.ReflTransGen.tail (hdreach v hvd)
                (mem_neighbors.mp (hnew_sub x h))
          have hP1sub : ∀ x ∈ ((neighbors g v).foldl enqueueStep (qs, d)).1,
              x ∈ ((neighbors g v).foldl enqueueStep (qs, d)).2 := by
            intro x hx
            rw [hq1] at hx
            rw [hd2]
            rcases List.mem_append.mp hx with h | h
            · exact List.mem_append_left _ (hqsd x h)
            · exact List.mem_append_right _ h
          have hP1nd : ((neighbors g v).foldl enqueueStep (qs, d)).1.Nodup := by
            rw [hq1, List.nodup_append]
            exact ⟨hqsnd, hnewnd, fun x hx hxnew => hdisj x hxnew (hqsd x hx)⟩
          have hP2len : ((neighbors g v).foldl enqueueStep (qs, d)).2.length ≤ nodeCount g :=
            length_le_of_nodup_bound hP2nd hP2lt
          have hfuel2 : (nodeCount g - ((neighbors g v).foldl enqueueStep (qs, d)).2.length)
              + ((neighbors g v).foldl enqueueStep (qs, d)).1.length ≤ fuel := by
            rw [hd2] at hP2len
            rw [hq1, hd2]
            simp only [List.length_append] at hP2len ⊢
            have hfuel3 : (nodeCount g - d.length) + (qs.length + 1) ≤ fuel + 1 := by
              simpa using hfuel
            omega
          have IH := ih ((neighbors g v).foldl enqueueStep (qs, d)).1
            ((neighbors g v).foldl enqueueStep (qs, d)).2
            hP2nd hP1nd hP1sub hP2lt hP2reach hfuel2
          rw [hrun]
          have hvO : v ∉ bfsRun g fuel ((neighbors g v).foldl enqueueStep (qs, d)).1
              ((neighbors g v).foldl enqueueStep (qs, d)).2 := by
            intro hvm
            rcases IH.2.2.2.2 v hvm with hv1 | hv2
            · rw [hq1] at hv1
              rcases List.mem_append.mp hv1 with h | h
              · exact hvqs h
              · exact hdisj v h hvd
            · refine hv2 ?_
              rw [hd2]
              exact List.mem_append_left _ hvd
          refine ⟨List.nodup_cons.mpr ⟨hvO, IH.1⟩, ?_, ?_, ?_, ?_⟩
          · intro x hx
            rcases List.mem_cons.mp hx with rfl | hx2
            · exact List.mem_cons_self _ _
            · refine List.mem_cons_of_mem _ (IH.2.1 x ?_)
              rw [hq1]
              exact List.mem_append_left _ hx2
          · intro x hx
            rcases List.mem_cons.mp hx with rfl | hx2
            · exact hdreach x hvd
            · exact IH.2.2.1 x hx2
          · intro x hx w hw
            rcases List.mem_cons.mp hx with rfl | hx2
            · have hwP2 : w ∈ ((neighbors g x).foldl enqueueStep (qs, d)).2 :=
                foldl_enqueue_mem _ qs d w (mem_neighbors.mpr hw)
              rw [hd2] at hwP2
              rcases List.mem_append.mp hwP2 with h | h
              · exact Or.inl h
              · refine Or.inr (List.mem_cons_of_mem _ (IH.2.1 w ?_))
                rw [hq1]
                exact List.mem_append_right _ h
            · rcases IH.2.2.2.1 x hx2 w hw with h | h
              · rw [hd2] at h
                rcases List.mem_append.mp h with h3 | h3
                · exact Or.inl h3
                · refine Or.inr (List.mem_cons_of_mem _ (IH.2.1 w ?_))
                  rw [hq1]
                  exact List.mem_append_right _ h3
              · exact Or.inr (List.mem_cons_of_mem _ h)
          · intro x hx
            rcases List.mem_cons.mp hx with rfl | hx2
            · exact Or.inl (List.mem_cons_self _ _)
            · rcases IH.2.2.2.2 x hx2 with h | h
              · rw [hq1] at h
                rcases List.mem_append.mp h with h3 | h3
                · exact Or.inl (List.mem_cons_of_mem _ h3)
                · exact Or.inr (hdisj x h3)
              · refine Or.inr ?_
                intro hxd
                refine h ?_
                rw [hd2]
                exact List.mem_append_left _ hxd

/-- BFS correctness on any graph with in-range edge targets: the visitation
sequence has no duplicates and its members are exactly the nodes reachable from
the start along stored edge directions. -/
lemma bfs_visits_iff (g : PGraph) (s : Nat)
    (hval : ∀ e ∈ g.edges, e.2 < nodeCount g) (hs : s < nodeCount g) :
    (bfs g s).Nodup ∧ ∀ v, v ∈ bfs g s ↔ dirReach g s v := by
  have H := bfsRun_master g s hval (nodeCount g) [s] [s]
    (List.nodup_singleton s) (List.nodup_singleton s)
    (fun x hx => hx)
    (fun x hx => by rw [List.mem_singleton] at hx; rwa [hx])
    (fun x hx => by
      rw [List.mem_singleton] at hx
      rw [hx]
      exact Relation.ReflTransGen.refl)
    (by simp only [List.length_singleton]; omega)
  refine ⟨H.1, fun v => ⟨H.2.2.1 v, ?_⟩⟩
  intro hreach
  unfold dirReach at hreach
  induction hreach with
  | refl => exact H.2.1 s (List.mem_singleton_self s)
  | tail hab hbc ihv =>
      rcases H.2.2.2.1 _ ihv _ hbc with h | h
      · rw [List.mem_singleton] at h
        rw [h]
        exact H.2.1 s (List.mem_singleton_self s)
      · exact h

/-! ### Handshake accounting for the reported degrees -/

lemma degree_eq_filter_length (g : PGraph) (v : Nat) :
    degree g v = (g.edges.filter (fun e => e.1 == v)).length := by
  unfold degree neighbors
  rw [List.length_reverse, List.length_map]

lemma sum_filter_src (es : List (Nat × Nat)) (n : Nat) (h : ∀ e ∈ es, e.1 < n) :
    ∑ v ∈ Finset.range n, (es.filter (fun e => e.1 == v)).length = es.length := by
  induction es with
  | nil => simp
  | cons e es ih =>
      have he : e.1 < n := h e (List.mem_cons_self e es)
      have hes : ∀ x ∈ es, x.1 < n := fun x hx => h x (List.mem_cons_of_mem _ hx)
      have hsplit : ∀ v, ((e :: es).filter (fun x => x.1 == v)).length
          = (if e.1 = v then 1 else 0) + (es.filter (fun x => x.1 == v)).length := by
        intro v
        by_cases hv : e.1 = v
        · simp [List.filter_cons, hv, Nat.add_comm]
        · simp [List.filter_cons, hv]
      calc ∑ v ∈ Finset.range n, ((e :: es).filter (fun x => x.1 == v)).length
          = ∑ v ∈ Finset.range n, ((if e.1 = v then 1 else 0)
              + (es.filter (fun x => x.1 == v)).length) :=
            Finset.sum_congr rfl (fun v _ => hsplit v)
        _ = (∑ v ∈ Finset.range n, if e.1 = v then 1 else 0)
              + ∑ v ∈ Finset.range n, (es.filter (fun x => x.1 == v)).length :=
            Finset.sum_add_distrib
        _ = 1 + es.length := by
            rw [ih hes, Finset.sum_ite_eq]
            simp [Finset.mem_range.mpr he]
        _ = (e :: es).length := by simp [Nat.add_comm]

lemma degreeSum_eq_edgeCount (g : PGraph) (h : ∀ e ∈ g.edges, e.1 < nodeCount g) :
    degreeSum g = edgeCount g := by
  unfold degreeSum edgeCount
  calc ∑ v ∈ Finset.range (nodeCount g), degree g v
      = ∑ v ∈ Finset.range (nodeCount g), (g.edges.filter (fun e => e.1 == v)).length :=
        Finset.sum_congr rfl (fun v _ => degree_eq_filter_length g v)
    _ = g.edges.length := sum_filter_src g.edges (nodeCount g) h

/-! ### Centrality Engine

`calculate_betweenness` (main.rs lines 92-94) delegates to
`rustworkx_core::centrality::betweenness_centrality`, an external crate whose
source is not part of this repository; only the call site is in src/. The
engine is therefore modelled from the spec, §4.3. -/

/-- Modelled from the spec: the Centrality Engine's adjacency view. The spec
fixes the algorithm as "unweighted and undirected", so a neighbor list collects
both endpoints of incident edges (the engine body itself is the missing
external-crate code). -/
def adjUndir (g : PGraph) (v : Nat) : List Nat :=
  g.edges.flatMap (fun e =>
    if e.1 = v then [e.2] else if e.2 = v then [e.1] else [])

/-- Modelled from the spec: the single-source BFS phase of Brandes' algorithm
(spec §4.3), which records for each reached node its shortest-path distance
from the source and its count of shortest paths ("sigma"), and returns the
discovered layers farthest-first for the backward accumulation. The engine
body is external-crate code missing from src/. Fuel-indexed; `nodeCount + 1`
always suffices since each round with a non-empty frontier discovers at least
one new node. -/
def bfsLayersAux (adj : Nat → List Nat) :
    Nat → List Nat → List (Option Nat) → List Nat → Nat →
      List (Option Nat) × List Nat × List (List Nat)
  | 0, _, dist, sigma, _ => (dist, sigma, [])
  | _ + 1, [], dist, sigma, _ => (dist, sigma, [])
  | fuel + 1, f :: fs, dist, sigma, dep =>
      let frontier := f :: fs
      let nextFrontier := ((frontier.flatMap adj).filter
        (fun w => (dist.getD w none).isNone)).dedup
      let dist2 := nextFrontier.foldl (fun dl w => dl.set w (some (dep + 1))) dist
      let sigma2 := frontier.foldl (fun sl v =>
        (adj v).foldl (fun sl2 w =>
          if (dist.getD w none).isNone then sl2.set w (sl2.getD w 0 + sigma.getD v 0)
          else sl2) sl) sigma
      let rest := bfsLayersAux adj fuel nextFrontier dist2 sigma2 (dep + 1)
      (rest.1, rest.2.1, rest.2.2 ++ [frontier])

/-- Modelled from the spec: run the Brandes BFS phase from source `s`. -/
def brandesBFS (g : PGraph) (s : Nat) :
    List (Option Nat) × List Nat × List (List Nat) :=
  bfsLayersAux (adjUndir g) (nodeCount g + 1) [s]
    ((List.replicate (nodeCount g) (none : Option Nat)).set s (some 0))
    ((List.replicate (nodeCount g) (0 : Nat)).set s 1) 0

/-- Modelled from the spec: the backward dependency accumulation of Brandes'
algorithm (spec §4.3). Nodes are processed farthest first; a node `v` receives
from every successor `w` one shortest-path step further the share
`sigma(v)/sigma(w) * (1 + dependency(w))`. -/
def dependencyPhase (adj : Nat → List Nat) (dist : List (Option Nat)) (sigma : List Nat)
    (layers : List (List Nat)) (n : Nat) : List ℚ :=
  layers.foldl (fun delta layer =>
    layer.foldl (fun dl v =>
      dl.set v ((adj v).foldl (fun acc w =>
        if dist.getD w none = some ((dist.getD v none).getD 0 + 1)
        then acc + ((sigma.getD v 0 : ℚ) / (sigma.getD w 0 : ℚ)) * (1 + dl.getD w 0)
        else acc) 0)) delta)
    (List.replicate n 0)

/-- Modelled from the spec: the per-node dependency totals contributed by one
source. -/
def brandesDelta (g : PGraph) (s : Nat) : List ℚ :=
  dependencyPhase (adjUndir g) (brandesBFS g s).1 (brandesBFS g s).2.1
    (brandesBFS g s).2.2 (nodeCount g)

/-- Modelled from the spec: one source's contribution to every node's
centrality total, the source itself excluded (spec §4.3). -/
def brandesSource (g : PGraph) (s : Nat) : List ℚ :=
  (List.range (nodeCount g)).map (fun v => if v = s then 0 else (brandesDelta g s).getD v 0)

/-- Modelled from the spec: the source nodes actually processed under the
`max_iterations` bound — the spec states the parameter "bounds the number of
source nodes processed". -/
def sourcesProcessed (g : PGraph) (max_iterations : Nat) : List Nat :=
  (List.range (nodeCount g)).take max_iterations

/-- Modelled from the spec: sum the per-source contributions and halve each
total, as the spec prescribes for undirected graphs (§4.3). -/
def accumulateSources (g : PGraph) (srcs : List Nat) : List ℚ :=
  (srcs.foldl (fun acc s => List.zipWith (fun a b => a + b) acc (brandesSource g s))
    (List.replicate (nodeCount g) 0)).map (fun x => x / 2)

/-- Modelled from the spec: the Centrality Engine contract
`betweenness_centrality(graph, max_iterations)` (spec §4.3); the engine body
lives in the external rustworkx_core crate, absent from src/. -/
def betweenness_centrality (g : PGraph) (max_iterations : Nat) : List ℚ :=
  accumulateSources g (sourcesProcessed g max_iterations)

/-- The unbounded all-sources Brandes result (every node taken as a source). -/
def brandesAllSources (g : PGraph) : List ℚ :=
  accumulateSources g (List.range (nodeCount g))

/-- `calculate_betweenness` (main.rs lines 92-94): the pipeline invokes the
engine with the literal argument 200. -/
def calculate_betweenness (g : PGraph) : List ℚ := betweenness_centrality g 200

/-! ### Claims -/

/-- C1, counterexample: the claim "node count equals input record count" fails
for the one-record input `[recA]`: after the duplicate-node step of `main` the
graph has 2 nodes, not 1. -/
theorem C1_counterexample :
    ¬ (nodeCount (main_graph [recA]) = ([recA] : List Country).length) := by
  decide

/-- C1 (amended): the graph produced by the construction phase (`build_graph`
plus `main`'s duplicate-node and similarity step) has node count equal to twice
the input record count; `build_graph` alone matches the record count. -/
theorem C1_amended (records : List Country) :
    nodeCount (main_graph records) = 2 * records.length ∧
      nodeCount (build_graph records) = records.length :=
  ⟨nodeCount_main_graph records, nodeCount_build_graph records⟩

/-- C2: the `max_iterations` argument of the Centrality Engine bounds the
number of source nodes processed, and whenever it is at least the node count
the bounded result coincides with the unbounded all-sources Brandes result. -/
theorem C2_max_iterations_bound (g : PGraph) (k : Nat) :
    (sourcesProcessed g k).length ≤ k ∧
      (nodeCount g ≤ k → betweenness_centrality g k = brandesAllSources g) := by
  constructor
  · unfold sourcesProcessed
    rw [List.length_take]
    exact min_le_left _ _
  · intro hk
    unfold betweenness_centrality sourcesProcessed
    rw [List.take_of_length_le (by simpa using hk)]
    rfl

/-- C2, witness: at the two-record graph with `max_iterations = 4 ≥ 4` the
bounded computation equals the all-sources result. -/
theorem C2_witness :
    nodeCount (main_graph [recA, recB]) ≤ 4 ∧
      betweenness_centrality (main_graph [recA, recB]) 4
        = brandesAllSources (main_graph [recA, recB]) :=
  ⟨by decide, (C2_max_iterations_bound (main_graph [recA, recB]) 4).2 (by decide)⟩

/-- C3, counterexample: adjacency in the fully constructed graph is not
symmetric: for the two-record input the similarity edge (2, 3) is present but
(3, 2) is not (the graph is directed and the similarity loop inserts only one
direction). -/
theorem C3_counterexample :
    (2, 3) ∈ (main_graph [recA, recB]).edges ∧ (3, 2) ∉ (main_graph [recA, recB]).edges := by
  rw [main_graph_int]
  decide

/-- C3 (amended): symmetry holds for the region-clique edges — `build_graph`
inserts both directions of every same-region pair — but the similarity edges
added in `main` are single-direction, so adjacency of the full graph is not
symmetric. -/
theorem C3_amended (records : List Country) (a b : Nat)
    (h : (a, b) ∈ (build_graph records).edges) :
    (b, a) ∈ (build_graph records).edges := by
  rcases mem_regionEdges.mp h with ⟨ha, hb, hne, hr⟩
  exact mem_regionEdges.mpr ⟨hb, ha, fun hc => hne hc.symm, hr.symm⟩

/-- C3, witness: both directions of the region edge between the two same-region
records are present in the built graph. -/
theorem C3_witness :
    (0, 1) ∈ (build_graph [recC, recD]).edges ∧ (1, 0) ∈ (build_graph [recC, recD]).edges :=
  ⟨by decide, C3_amended [recC, recD] 0 1 (by decide)⟩

/-- C4, counterexample: region-clique completeness fails in the constructed
graph: for the one-record input the original node 0 and its duplicate node 1
share the region string yet no edge connects them in either direction. -/
theorem C4_counterexample :
    (nodeData (main_graph [recA]) 0).country_region
        = (nodeData (main_graph [recA]) 1).country_region ∧
      (0 : Nat) ≠ 1 ∧
      (0, 1) ∉ (main_graph [recA]).edges ∧ (1, 0) ∉ (main_graph [recA]).edges := by
  rw [main_graph_int]
  decide

/-- C4 (amended): region-clique completeness holds for the nodes created by
`build_graph` (indices below the record count): every such same-region pair is
connected in both directions in the final graph. Pairs involving the duplicate
nodes added in `main` receive no region edge. -/
theorem C4_amended (records : List Country) (i j : Nat)
    (hi : i < records.length) (hj : j < records.length) (hij : i ≠ j)
    (hr : (records.getD i defaultCountry).country_region
        = (records.getD j defaultCountry).country_region) :
    (i, j) ∈ (main_graph records).edges ∧ (j, i) ∈ (main_graph records).edges := by
  constructor
  · exact List.mem_append_left _ (mem_regionEdges.mpr ⟨hi, hj, hij, hr⟩)
  · exact List.mem_append_left _ (mem_regionEdges.mpr ⟨hj, hi, fun hc => hij hc.symm, hr.symm⟩)

/-- C4, witness: the two same-region records are connected both ways in the
final graph. -/
theorem C4_witness :
    ([recC, recD].getD 0 defaultCountry).country_region
        = ([recC, recD].getD 1 defaultCountry).country_region ∧
      (0, 1) ∈ (main_graph [recC, recD]).edges ∧ (1, 0) ∈ (main_graph [recC, recD]).edges :=
  ⟨by decide, C4_amended [recC, recD] 0 1 (by decide) (by decide) (by decide) (by decide)⟩

/-- C5, counterexample: similarity completeness fails in the constructed graph:
for the one-record input, node 0 and its duplicate node 1 have score difference
0 < 1 yet are connected by no edge. -/
theorem C5_counterexample :
    |(nodeData (main_graph [recA]) 0).happiness_score
        - (nodeData (main_graph [recA]) 1).happiness_score| < 1 ∧
      (0, 1) ∉ (main_graph [recA]).edges ∧ (1, 0) ∉ (main_graph [recA]).edges := by
  refine ⟨?_, ?_, ?_⟩
  · rw [scoreClose_iff]
    rw [main_graph_int]
    decide
  · rw [main_graph_int]
    decide
  · rw [main_graph_int]
    decide

/-- C5 (amended): similarity completeness holds among the duplicate nodes
created in `main` — record positions `i < j` with score difference below 1 are
connected at node indices `length + i`, `length + j`; and the negative half of
the claim holds as stated: a pair with score difference at least 1 and
different regions is never connected. -/
theorem C5_amended (records : List Country) :
    (∀ i j, i < records.length → j < records.length → i < j →
      |(records.getD i defaultCountry).happiness_score
        - (records.getD j defaultCountry).happiness_score| < 1 →
      (records.length + i, records.length + j) ∈ (main_graph records).edges) ∧
    (∀ a b, 1 ≤ |(nodeData (main_graph records) a).happiness_score
        - (nodeData (main_graph records) b).happiness_score| →
      (nodeData (main_graph records) a).country_region
        ≠ (nodeData (main_graph records) b).country_region →
      (a, b) ∉ (main_graph records).edges) := by
  constructor
  · intro i j hi hj hij hs
    exact List.mem_append_right _ (mem_simEdges.mpr ⟨i, j, hi, hj, hij, hs, rfl, rfl⟩)
  · intro a b hge hne hmem
    rcases List.mem_append.mp hmem with h | h
    · rcases mem_regionEdges.mp h with ⟨ha, hb, _, hr⟩
      refine hne ?_
      rw [nodeData_main_graph_left ha, nodeData_main_graph_left hb]
      exact hr
    · rcases mem_simEdges.mp h with ⟨i, j, hi, hj, hij, hs, rfl, rfl⟩
      rw [nodeData_main_graph_right, nodeData_main_graph_right] at hge
      exact absurd hs (not_lt.mpr hge)

/-- C5, witness: the close-scores pair is connected among the duplicates, and a
far-scores, different-regions pair is not connected. -/
theorem C5_witness :
    (2, 3) ∈ (main_graph [recA, recB]).edges ∧ (0, 1) ∉ (main_graph [recC, recF]).edges := by
  constructor
  · have h := (C5_amended [recA, recB]).1 0 1 (by decide) (by decide) (by decide)
      (by rw [scoreClose_iff]; decide)
    simpa using h
  · refine (C5_amended [recC, recF]).2 0 1 ?_ ?_
    · refine not_lt.mp ?_
      rw [scoreClose_iff]
      rw [main_graph_int]
      decide
    · rw [main_graph_int]
      decide

/-- C6, counterexample: the degree sum equals the edge count, not twice the
edge count: for two same-region far-score records the graph has the two
directed region edges, degree sum 2 and edge count 2 (the reported degree
counts outgoing edges only). -/
theorem C6_counterexample :
    ¬ (degreeSum (main_graph [recC, recD]) = 2 * edgeCount (main_graph [recC, recD])) := by
  rw [main_graph_int]
  decide

/-- C6 (amended): the sum of the degrees reported by the Degree Reporter over
all nodes equals exactly the edge count — each stored directed edge is counted
once, at its source — rather than twice the edge count. -/
theorem C6_amended (records : List Country) :
    degreeSum (main_graph records) = edgeCount (main_graph records) :=
  degreeSum_eq_edgeCount _ (fun _ he => (main_graph_edges_bound he).1)

/-- C7, counterexample: the BFS visitation set is not the undirected connected
component of the start: with records P (score 5), Q (score 6.2), S (score 5.5)
the similarity edges are 3 → 5 and 4 → 5; node 4 is in the undirected
component of node 3 but BFS from 3 never visits it. -/
theorem C7_counterexample :
    undirReach (main_graph [recP, recQ, recS]) 3 4 ∧
      4 ∉ bfs (main_graph [recP, recQ, recS]) 3 := by
  constructor
  · have h1 : (3, 5) ∈ (main_graph [recP, recQ, recS]).edges := by
      rw [main_graph_int]
      decide
    have h2 : (4, 5) ∈ (main_graph [recP, recQ, recS]).edges := by
      rw [main_graph_int]
      decide
    exact Relation.ReflTransGen.head (Or.inl h1) (Relation.ReflTransGen.single (Or.inr h2))
  · rw [main_graph_int]
    decide

/-- C7 (amended): from any valid start node, the BFS visitation sequence
contains each node at most once and its members are exactly the nodes reachable
from the start along stored edge directions (region edges are stored both ways,
similarity edges only from the earlier duplicate to the later one). -/
theorem C7_amended (records : List Country) (s : Nat)
    (hs : s < nodeCount (main_graph records)) :
    (bfs (main_graph records) s).Nodup ∧
      ∀ v, v ∈ bfs (main_graph records) s ↔ dirReach (main_graph records) s v :=
  bfs_visits_iff _ s (fun _ he => (main_graph_edges_bound he).2) hs

/-- C7, witness: instantiation at the one-record graph with start node 0. -/
theorem C7_witness :
    0 < nodeCount (main_graph [recA]) ∧
      ((bfs (main_graph [recA]) 0).Nodup ∧
        ∀ v, v ∈ bfs (main_graph [recA]) 0 ↔ dirReach (main_graph [recA]) 0 v) :=
  ⟨by decide, C7_amended [recA] 0 (by decide)⟩

/-- C8: the constructed graph never contains a self-loop: the region loops skip
equal indices and the similarity loop runs over strictly increasing pairs. -/
theorem C8_no_self_loops (records : List Country) :
    ∀ e ∈ (main_graph records).edges, e.1 ≠ e.2 := by
  intro e he
  rcases e with ⟨a, b⟩
  rcases List.mem_append.mp he with h | h
  · rcases mem_regionEdges.mp h with ⟨_, _, hne, _⟩
    simpa using hne
  · rcases mem_simEdges.mp h with ⟨i, j, _, _, hij, _, rfl, rfl⟩
    show records.length + i ≠ records.length + j
    omega

/-- C8, witness: a concrete edge of a concrete constructed graph, with the
no-self-loop conclusion instantiated on it. -/
theorem C8_witness :
    (0, 1) ∈ (main_graph [recC, recD]).edges ∧ (0 : Nat) ≠ 1 :=
  ⟨by rw [main_graph_int]; decide,
    C8_no_self_loops [recC, recD] (0, 1) (by rw [main_graph_int]; decide)⟩

/-- C10: after `main`'s duplicate-node and similarity step the analyzed graph
has exactly two node copies per input record (the duplicate of record `i` sits
at index `length + i` and wraps the same record); region edges touch only
first-copy indices, similarity edges only duplicate indices, so no single node
carries edges from both policies. -/
theorem C10_two_copies (records : List Country) (_hne : records ≠ []) :
    nodeCount (main_graph records) = 2 * records.length ∧
      (main_graph records).edges = regionEdges records ++ simEdges records ∧
      (∀ i, i < records.length →
        nodeData (main_graph records) (records.length + i) = nodeData (main_graph records) i) ∧
      (∀ e ∈ regionEdges records, e.1 < records.length ∧ e.2 < records.length) ∧
      (∀ e ∈ simEdges records, records.length ≤ e.1 ∧ records.length ≤ e.2) ∧
      (∀ v, ¬ ((∃ e ∈ regionEdges records, e.1 = v ∨ e.2 = v) ∧
               (∃ e ∈ simEdges records, e.1 = v ∨ e.2 = v))) := by
  refine ⟨nodeCount_main_graph records, rfl, ?_, ?_, ?_, ?_⟩
  · intro i hi
    rw [nodeData_main_graph_right, nodeData_main_graph_left hi]
  · intro e he
    rcases e with ⟨a, b⟩
    rcases mem_regionEdges.mp he with ⟨ha, hb, _, _⟩
    exact ⟨ha, hb⟩
  · intro e he
    rcases e with ⟨a, b⟩
    rcases mem_simEdges.mp he with ⟨i, j, _, _, _, _, rfl, rfl⟩
    exact ⟨Nat.le_add_right _ _, Nat.le_add_right _ _⟩
  · rintro v ⟨⟨⟨a1, b1⟩, he1, hv1⟩, ⟨⟨a2, b2⟩, he2, hv2⟩⟩
    rcases mem_regionEdges.mp he1 with ⟨ha1, hb1, _, _⟩
    rcases mem_simEdges.mp he2 with ⟨i, j, hi, hj, _, _, h2a, h2b⟩
    simp only at hv1 hv2
    rcases hv1 with rfl | rfl <;> rcases hv2 with h2 | h2 <;> omega

/-- C10, witness: instantiation at the two-record input. -/
theorem C10_witness :
    ([recA, recB] : List Country) ≠ [] ∧
      nodeCount (main_graph [recA, recB]) = 2 * ([recA, recB] : List Country).length :=
  ⟨by simp, (C10_two_copies [recA, recB] (by simp)).1⟩

/-- C9, counterexample: for the two-record scenario the constructed graph has
4 nodes (not 2) and degree profile [0, 0, 1, 0]: only A's duplicate node 2 has
degree 1, while both nodes wrapping record B (indices 1 and 3) have degree 0 —
so it is false that both records' nodes have degree 1. -/
theorem C9_counterexample :
    nodeCount (main_graph [recA, recB]) = 4 ∧
      (main_graph [recA, recB]).edges = [(2, 3)] ∧
      (List.range 4).map (degree (main_graph [recA, recB])) = [0, 0, 1, 0] ∧
      degree (main_graph [recA, recB]) 1 ≠ 1 ∧
      degree (main_graph [recA, recB]) 3 ≠ 1 := by
  rw [main_graph_int]
  decide

/-- C9 (amended): for the two-record scenario the pipeline graph has 4 nodes
and exactly one edge — the similarity edge (2, 3) between the duplicates; node
2 has degree 1 and all other nodes degree 0; BFS from the start node used by
`main` (`nodes[0]`, A's duplicate, index 2) visits exactly [2, 3]; and the
betweenness centrality of every node is 0. -/
theorem C9_amended :
    nodeCount (main_graph [recA, recB]) = 4 ∧
      edgeCount (main_graph [recA, recB]) = 1 ∧
      degree (main_graph [recA, recB]) 2 = 1 ∧
      degree (main_graph [recA, recB]) 0 = 0 ∧
      degree (main_graph [recA, recB]) 1 = 0 ∧
      degree (main_graph [recA, recB]) 3 = 0 ∧
      bfs (main_graph [recA, recB]) 2 = [2, 3] ∧
      calculate_betweenness (main_graph [recA, recB]) = [0, 0, 0, 0] := by
  refine ⟨by decide, ?_, ?_, ?_, ?_, ?_, ?_, ?_⟩
  · rw [main_graph_int]
    decide
  · rw [main_graph_int]
    decide
  · rw [main_graph_int]
    decide
  · rw [main_graph_int]
    decide
  · rw [main_graph_int]
    decide
  · rw [main_graph_int]
    decide
  · have hn : nodeCount (main_graph [recA, recB]) = 4 := by decide
    have ha0 : adjUndir (main_graph [recA, recB]) 0 = [] := by
      rw [main_graph_int]
      decide
    have ha1 : adjUndir (main_graph [recA, recB]) 1 = [] := by
      rw [main_graph_int]
      decide
    have ha2 : adjUndir (main_graph [recA, recB]) 2 = [3] := by
      rw [main_graph_int]
      decide
    have ha3 : adjUndir (main_graph [recA, recB]) 3 = [2] := by
      rw [main_graph_int]
      decide
    have hb0 : brandesBFS (main_graph [recA, recB]) 0
        = ([some 0, none, none, none], [1, 0, 0, 0], [[0]]) := by
      rw [main_graph_int]
      decide
    have hb1 : brandesBFS (main_graph [recA, recB]) 1
        = ([none, some 0, none, none], [0, 1, 0, 0], [[1]]) := by
      rw [main_graph_int]
      decide
    have hb2 : brandesBFS (main_graph [recA, recB]) 2
        = ([none, none, some 0, some 1], [0, 0, 1, 1], [[3], [2]]) := by
      rw [main_graph_int]
      decide
    have hb3 : brandesBFS (main_graph [recA, recB]) 3
        = ([none, none, some 1, some 0], [0, 0, 1, 1], [[2], [3]]) := by
      rw [main_graph_int]
      decide
    have hd0 : brandesDelta (main_graph [recA, recB]) 0 = [0, 0, 0, 0] := by
      unfold brandesDelta
      rw [hb0, hn]
      norm_num [dependencyPhase, ha0, List.foldl_cons, List.foldl_nil, List.replicate_succ]
    have hd1 : brandesDelta (main_graph [recA, recB]) 1 = [0, 0, 0, 0] := by
      unfold brandesDelta
      rw [hb1, hn]
      norm_num [dependencyPhase, ha1, List.foldl_cons, List.foldl_nil, List.replicate_succ]
    have hd2 : brandesDelta (main_graph [recA, recB]) 2 = [0, 0, 1, 0] := by
      unfold brandesDelta
      rw [hb2, hn]
      norm_num [dependencyPhase, ha2, ha3, List.foldl_cons, List.foldl_nil, List.replicate_succ]
    have hd3 : brandesDelta (main_graph [recA, recB]) 3 = [0, 0, 0, 1] := by
      unfold brandesDelta
      rw [hb3, hn]
      norm_num [dependencyPhase, ha2, ha3, List.foldl_cons, List.foldl_nil, List.replicate_succ]
    have hs0 : brandesSource (main_graph [recA, recB]) 0 = [0, 0, 0, 0] := by
      unfold brandesSource
      rw [hd0, hn]
      norm_num [List.range_succ]
    have hs1 : brandesSource (main_graph [recA, recB]) 1 = [0, 0, 0, 0] := by
      unfold brandesSource
      rw [hd1, hn]
      norm_num [List.range_succ]
    have hs2 : brandesSource (main_graph [recA, recB]) 2 = [0, 0, 0, 0] := by
      unfold brandesSource
      rw [hd2, hn]
      norm_num [List.range_succ]
    have hs3 : brandesSource (main_graph [recA, recB]) 3 = [0, 0, 0, 0] := by
      unfold brandesSource
      rw [hd3, hn]
      norm_num [List.range_succ]
    have hsrc : sourcesProcessed (main_graph [recA, recB]) 200 = [0, 1, 2, 3] := by decide
    unfold calculate_betweenness betweenness_centrality accumulateSources
    rw [hsrc, hn]
    norm_num [List.foldl_cons, List.foldl_nil, List.replicate_succ, hs0, hs1, hs2, hs3]
